import Mathlib

/-!
Shallow embedding, in exact arithmetic over a field, of the
portfolio-optimization arithmetic of the tidy-finance scripts
`ch1_2_modern_portfolio_theory.py` and `ch1_3_capital_asset_pricing_model.py`.
Vectors are functions `Fin n → K`, matrices are `Matrix (Fin n) (Fin n) K`,
and the numpy `@` products become `Matrix.mulVec` / `Matrix.dotProduct`
(associativity of matrix products makes the grouping immaterial).
`np.linalg.inv` and `np.linalg.solve` are embedded by the exact inverse via
the adjugate; their raise-on-singular behaviour is modelled at the run level
by `Option`.  `np.sqrt` of a negative scalar yields NaN, modelled as `none`.
-/

open Matrix

namespace TidyFinance

section Defs

variable {K : Type} [Field K] {n : ℕ}

/-- The all-ones vector `iota = np.ones(sigma.shape[0])` (ch1_2, line 113). -/
def iota (n : ℕ) : Fin n → K := fun _ => 1

/-- Exact-arithmetic embedding of `np.linalg.inv(sigma.values)` (ch1_2, line 114):
the inverse of a square matrix, computed as the adjugate scaled by the inverse of
the determinant.  For an invertible matrix this is the mathematical inverse;
the raise on a singular input is modelled by `run_omega_mvp` below. -/
def npLinalgInv (A : Matrix (Fin n) (Fin n) K) : Matrix (Fin n) (Fin n) K :=
  A.det⁻¹ • A.adjugate

/-- Minimum-variance weights
`omega_mvp = (sigma_inv @ iota) / (iota @ sigma_inv @ iota)` (ch1_2, line 115),
the elementwise scalar division written pointwise. -/
def omega_mvp (S : Matrix (Fin n) (Fin n) K) : Fin n → K :=
  fun i => (npLinalgInv S *ᵥ iota n) i / (iota n ⬝ᵥ npLinalgInv S *ᵥ iota n)

/-- Scalar `C = iota @ sigma_inv @ iota` (ch1_2, line 150). -/
def C (S : Matrix (Fin n) (Fin n) K) : K :=
  iota n ⬝ᵥ npLinalgInv S *ᵥ iota n

/-- Scalar `D = iota @ sigma_inv @ mu` (ch1_2, line 151). -/
def D (S : Matrix (Fin n) (Fin n) K) (μ : Fin n → K) : K :=
  iota n ⬝ᵥ npLinalgInv S *ᵥ μ

/-- Scalar `E = mu @ sigma_inv @ mu` (ch1_2, line 152). -/
def E (S : Matrix (Fin n) (Fin n) K) (μ : Fin n → K) : K :=
  μ ⬝ᵥ npLinalgInv S *ᵥ μ

/-- Scalar `lambda_tilde = 2 * (mu_bar - D / C) / (E - (D**2) / C)`
(ch1_2, line 153).  The code performs the division unconditionally. -/
def lambda_tilde (S : Matrix (Fin n) (Fin n) K) (μ : Fin n → K) (μbar : K) : K :=
  2 * (μbar - D S μ / C S) / (E S μ - D S μ ^ 2 / C S)

/-- Efficient-portfolio weights
`omega_efp = omega_mvp + (lambda_tilde / 2) * (sigma_inv @ mu - D * omega_mvp)`
(ch1_2, line 154). -/
def omega_efp (S : Matrix (Fin n) (Fin n) K) (μ : Fin n → K) (μbar : K) : Fin n → K :=
  fun i =>
    omega_mvp S i +
      lambda_tilde S μ μbar / 2 * ((npLinalgInv S *ᵥ μ) i - D S μ * omega_mvp S i)

/-- Expected return of the efficient portfolio, `mu_efp = omega_efp @ mu`
(ch1_2, line 155). -/
def mu_efp (S : Matrix (Fin n) (Fin n) K) (μ : Fin n → K) (μbar : K) : K :=
  omega_efp S μ μbar ⬝ᵥ μ

/-- Exact-arithmetic embedding of `np.linalg.solve(A, b)` (ch1_3, line 59): for an
invertible `A` it returns the unique solution of `A x = b`, namely `A⁻¹ b`. -/
def npLinalgSolve (A : Matrix (Fin n) (Fin n) K) (b : Fin n → K) : Fin n → K :=
  npLinalgInv A *ᵥ b

/-- Unnormalized tangency vector `np.linalg.solve(sigma, mu - rf)` (ch1_3, line 59);
numpy broadcasts the scalar `rf`, so the right-hand side is `μ - rf • 1`. -/
def w_tan_raw (S : Matrix (Fin n) (Fin n) K) (μ : Fin n → K) (rf : K) : Fin n → K :=
  npLinalgSolve S (μ - rf • iota n)

/-- Normalized tangency weights `w_tan = w_tan / np.sum(w_tan)` (ch1_3, line 60).
The code divides by the entry sum with no zero-sum guard. -/
def w_tan (S : Matrix (Fin n) (Fin n) K) (μ : Fin n → K) (rf : K) : Fin n → K :=
  fun i => w_tan_raw S μ rf i / ∑ j, w_tan_raw S μ rf j

/-- Asset betas `betas = (sigma @ w_tan) / (w_tan.T @ sigma @ w_tan)`
(ch1_3, line 94). -/
def betas (S : Matrix (Fin n) (Fin n) K) (w : Fin n → K) : Fin n → K :=
  fun i => (S *ᵥ w) i / (w ⬝ᵥ S *ᵥ w)

/-- Run-level minimum-variance computation (ch1_2, lines 113-115):
`np.linalg.inv` raises `LinAlgError` on a singular matrix — in exact arithmetic,
exactly when the determinant vanishes — modelled as `none`; otherwise the
weights `omega_mvp` are produced. -/
def run_omega_mvp [DecidableEq K] (S : Matrix (Fin n) (Fin n) K) : Option (Fin n → K) :=
  if S.det = 0 then none else some (omega_mvp S)

/-- Run-level efficient-portfolio computation (ch1_2, lines 113-115 and 149-154):
after a successful inversion the code computes `lambda_tilde` and `omega_efp`
unconditionally; no degeneracy check of any kind is performed. -/
def run_omega_efp [DecidableEq K] (S : Matrix (Fin n) (Fin n) K) (μ : Fin n → K)
    (μbar : K) : Option (Fin n → K) :=
  if S.det = 0 then none else some (omega_efp S μ μbar)

end Defs

/-- Embedding of `np.sqrt` applied to an exact rational scalar: a negative
radicand produces NaN (modelled as `none`), a nonnegative one the real square
root.  No clamping and no warning mechanism exist in the source. -/
noncomputable def npSqrt (x : ℚ) : Option ℝ :=
  if x < 0 then none else some (Real.sqrt (x : ℝ))

/-- Volatility step `np.sqrt(w @ sigma @ w)` shared by `sigma_mvp`
(ch1_2, line 142), `sigma_efp` (ch1_2, line 156) and `sigma_w` (ch1_3, line 63). -/
noncomputable def portfolio_sigma {n : ℕ} (S : Matrix (Fin n) (Fin n) ℚ)
    (w : Fin n → ℚ) : Option ℝ :=
  npSqrt (w ⬝ᵥ S *ᵥ w)

/-- Positive definiteness of the quadratic form `x ↦ x ⬝ᵥ S x`: the defining
property of an invertible covariance matrix (spec, section 3). -/
def IsPD {K : Type} [LinearOrderedField K] {n : ℕ} (S : Matrix (Fin n) (Fin n) K) : Prop :=
  ∀ x : Fin n → K, x ≠ 0 → 0 < x ⬝ᵥ S *ᵥ x

section Lemmas

variable {K : Type} [Field K] {n : ℕ}

lemma npLinalgInv_eq_inv (A : Matrix (Fin n) (Fin n) K) : npLinalgInv A = A⁻¹ := by
  rw [npLinalgInv, Matrix.inv_def, Ring.inverse_eq_inv]

lemma mul_npLinalgInv {A : Matrix (Fin n) (Fin n) K} (h : IsUnit A.det) :
    A * npLinalgInv A = 1 := by
  rw [npLinalgInv_eq_inv]
  exact Matrix.mul_nonsing_inv A h

lemma mulVec_npLinalgInv {A : Matrix (Fin n) (Fin n) K} (h : IsUnit A.det) (v : Fin n → K) :
    A *ᵥ (npLinalgInv A *ᵥ v) = v := by
  rw [Matrix.mulVec_mulVec, mul_npLinalgInv h, Matrix.one_mulVec]

lemma iota_dotProduct (x : Fin n → K) : iota n ⬝ᵥ x = ∑ i, x i := by
  simp [iota, dotProduct]

lemma dotProduct_iota (x : Fin n → K) : x ⬝ᵥ iota n = ∑ i, x i := by
  simp [iota, dotProduct]

lemma sum_omega_mvp {S : Matrix (Fin n) (Fin n) K} (hC : C S ≠ 0) :
    ∑ i, omega_mvp S i = 1 := by
  have h : ∑ i, omega_mvp S i = (∑ i, (npLinalgInv S *ᵥ iota n) i) / C S := by
    rw [Finset.sum_div]
    rfl
  rw [h, ← iota_dotProduct (npLinalgInv S *ᵥ iota n)]
  exact div_self hC

lemma iota_ne_zero {K : Type} [Field K] {n : ℕ} (hn : 0 < n) :
    (iota n : Fin n → K) ≠ 0 := by
  intro h
  have h0 := congrFun h ⟨0, hn⟩
  simp [iota] at h0

lemma omega_mvp_eq_smul (S : Matrix (Fin n) (Fin n) K) :
    omega_mvp S = (C S)⁻¹ • (npLinalgInv S *ᵥ iota n) := by
  funext i
  simp [omega_mvp, C, Pi.smul_apply, smul_eq_mul, div_eq_inv_mul]

lemma mulVec_omega_mvp {S : Matrix (Fin n) (Fin n) K} (hdet : IsUnit S.det) :
    S *ᵥ omega_mvp S = (C S)⁻¹ • iota n := by
  rw [omega_mvp_eq_smul, Matrix.mulVec_smul, mulVec_npLinalgInv hdet]

lemma vecMul_eq_mulVec_of_symm {S : Matrix (Fin n) (Fin n) K} (hsym : Sᵀ = S)
    (x : Fin n → K) : x ᵥ* S = S *ᵥ x := by
  conv_lhs => rw [← hsym]
  rw [vecMul_transpose]

lemma dot_mulVec_symm {S : Matrix (Fin n) (Fin n) K} (hsym : Sᵀ = S)
    (x y : Fin n → K) : x ⬝ᵥ S *ᵥ y = (S *ᵥ x) ⬝ᵥ y := by
  rw [dotProduct_mulVec, vecMul_eq_mulVec_of_symm hsym]

lemma npLinalgInv_transpose {A : Matrix (Fin n) (Fin n) K} (hsym : Aᵀ = A) :
    (npLinalgInv A)ᵀ = npLinalgInv A := by
  simp only [npLinalgInv, Matrix.transpose_smul, Matrix.adjugate_transpose, hsym]

lemma C_pos {K : Type} [LinearOrderedField K] {n : ℕ} {S : Matrix (Fin n) (Fin n) K}
    (hn : 0 < n) (hdet : IsUnit S.det) (hpd : IsPD S) : 0 < C S := by
  have hSu : S *ᵥ (npLinalgInv S *ᵥ iota n) = iota n := mulVec_npLinalgInv hdet (iota n)
  have hune : npLinalgInv S *ᵥ iota n ≠ 0 := by
    intro h0
    rw [h0, Matrix.mulVec_zero] at hSu
    exact iota_ne_zero hn hSu.symm
  have hq := hpd _ hune
  rw [hSu, dotProduct_iota] at hq
  have hC : C S = ∑ i, (npLinalgInv S *ᵥ iota n) i := iota_dotProduct _
  rw [hC]
  exact hq

lemma isPD_one {K : Type} [LinearOrderedField K] {n : ℕ} :
    IsPD (1 : Matrix (Fin n) (Fin n) K) := by
  intro x hx
  rw [Matrix.one_mulVec]
  obtain ⟨i, hi⟩ := Function.ne_iff.mp hx
  have hterm : 0 < x i * x i := mul_self_pos.mpr (by simpa using hi)
  exact Finset.sum_pos' (fun j _ => mul_self_nonneg (x j)) ⟨i, Finset.mem_univ i, hterm⟩

end Lemmas

/-- C1: for every invertible covariance matrix `Σ`, the minimum-variance weights
computed by the program equal `(Σ⁻¹ 1) / (1ᵀ Σ⁻¹ 1)`, where the mathematical
inverse `Σ⁻¹` is characterized as the matrix `M` with `Σ * M = 1`. -/
theorem mvp_weights_closed_form {n : ℕ} (S M : Matrix (Fin n) (Fin n) ℚ)
    (hM : S * M = 1) :
    omega_mvp S = fun i => (M *ᵥ iota n) i / (iota n ⬝ᵥ M *ᵥ iota n) := by
  have h1 : npLinalgInv S = M := by
    rw [npLinalgInv_eq_inv]
    exact Matrix.inv_eq_right_inv hM
  funext i
  simp only [omega_mvp, h1]

/-- Witness for C1 at a concrete invertible 2×2 matrix and its inverse. -/
theorem mvp_weights_closed_form_witness :
    !![(2 : ℚ), 0; 0, 4] * !![(1 : ℚ)/2, 0; 0, (1 : ℚ)/4] = 1 ∧
      omega_mvp !![(2 : ℚ), 0; 0, 4] =
        fun i => (!![(1 : ℚ)/2, 0; 0, (1 : ℚ)/4] *ᵥ iota 2) i /
          (iota 2 ⬝ᵥ !![(1 : ℚ)/2, 0; 0, (1 : ℚ)/4] *ᵥ iota 2) := by
  have hM : !![(2 : ℚ), 0; 0, 4] * !![(1 : ℚ)/2, 0; 0, (1 : ℚ)/4] = 1 := by
    ext i j
    fin_cases i <;> fin_cases j <;>
      simp [Matrix.mul_apply, Fin.sum_univ_two, Matrix.one_apply]
  exact ⟨hM, mvp_weights_closed_form _ _ hM⟩

/-- C2: for every positive-definite (hence invertible) covariance matrix over a
nonempty asset universe, the computed minimum-variance weights sum to exactly 1
in exact arithmetic. -/
theorem mvp_weights_sum_to_one {n : ℕ} (S : Matrix (Fin n) (Fin n) ℚ)
    (hn : 0 < n) (hdet : IsUnit S.det) (hpd : IsPD S) :
    ∑ i, omega_mvp S i = 1 :=
  sum_omega_mvp (C_pos hn hdet hpd).ne'

/-- Witness for C2 at the 2×2 identity matrix. -/
theorem mvp_weights_sum_to_one_witness :
    0 < 2 ∧ IsUnit (1 : Matrix (Fin 2) (Fin 2) ℚ).det ∧
      IsPD (1 : Matrix (Fin 2) (Fin 2) ℚ) ∧
      ∑ i, omega_mvp (1 : Matrix (Fin 2) (Fin 2) ℚ) i = 1 :=
  ⟨by decide, by simp, isPD_one,
    mvp_weights_sum_to_one 1 (by decide) (by simp) isPD_one⟩

/-- Counterexample to C3 as stated: for the invertible matrix `Σ = 2·I₂` and the
input `μ = r_f · 1` (every mean equal to the risk-free rate), the solve step
returns the zero vector, and the normalized tangency weights do not sum to 1. -/
theorem tangency_sum_counterexample :
    (!![(2 : ℚ), 0; 0, 2]).det ≠ 0 ∧
      ∑ i, w_tan !![(2 : ℚ), 0; 0, 2] (fun _ => 1/100) (1/100) i ≠ 1 := by
  constructor
  · rw [Matrix.det_fin_two_of]
    norm_num
  · have hz : (fun _ => (1 : ℚ)/100) - ((1 : ℚ)/100) • (iota 2 : Fin 2 → ℚ) = 0 := by
      funext i
      simp [iota]
    have hraw : w_tan_raw !![(2 : ℚ), 0; 0, 2] (fun _ => 1/100) (1/100) = 0 := by
      rw [w_tan_raw, npLinalgSolve, hz, Matrix.mulVec_zero]
    simp only [w_tan, hraw, Pi.zero_apply, zero_div, Finset.sum_const_zero]
    norm_num

/-- C3 amended: for an invertible `Σ`, provided the solution of
`Σ x = μ - r_f 1` has a nonzero entry sum, the normalized tangency weights sum
to exactly 1. -/
theorem tangency_weights_sum_to_one {n : ℕ} (S : Matrix (Fin n) (Fin n) ℚ)
    (μ : Fin n → ℚ) (rf : ℚ) (_hdet : IsUnit S.det)
    (hsum : ∑ j, w_tan_raw S μ rf j ≠ 0) :
    ∑ i, w_tan S μ rf i = 1 := by
  have h : ∑ i, w_tan S μ rf i =
      (∑ i, w_tan_raw S μ rf i) / ∑ j, w_tan_raw S μ rf j := by
    rw [Finset.sum_div]
    rfl
  exact h.trans (div_self hsum)

/-- Witness for the amended C3 at a concrete invertible diagonal matrix. -/
theorem tangency_weights_sum_to_one_witness :
    IsUnit (!![(1 : ℚ), 0; 0, 2]).det ∧
      (∑ j, w_tan_raw !![(1 : ℚ), 0; 0, 2] ![2, 3] 1 j) ≠ 0 ∧
      ∑ i, w_tan !![(1 : ℚ), 0; 0, 2] ![2, 3] 1 i = 1 := by
  have hdet : IsUnit (!![(1 : ℚ), 0; 0, 2]).det := by
    rw [Matrix.det_fin_two_of]
    norm_num
  have hsum : (∑ j, w_tan_raw !![(1 : ℚ), 0; 0, 2] ![2, 3] 1 j) ≠ 0 := by
    norm_num [w_tan_raw, npLinalgSolve, npLinalgInv, Matrix.det_fin_two_of,
      Matrix.adjugate_fin_two, Matrix.mulVec, dotProduct, Fin.sum_univ_two, iota]
  exact ⟨hdet, hsum, tangency_weights_sum_to_one _ _ _ hdet hsum⟩

/-- C5: a covariance matrix with two identical rows is singular, and the
run-level minimum-variance computation fails (the inversion raises, modelled
as `none`) instead of producing weights. -/
theorem mvp_singular_fails {n : ℕ} (S : Matrix (Fin n) (Fin n) ℚ)
    (i j : Fin n) (hij : i ≠ j) (hrow : S i = S j) :
    run_omega_mvp S = none := by
  have hdet : S.det = 0 := Matrix.det_zero_of_row_eq hij hrow
  simp [run_omega_mvp, hdet]

/-- Witness for C5 at a concrete matrix with two identical rows. -/
theorem mvp_singular_fails_witness :
    (0 : Fin 2) ≠ 1 ∧ !![(1 : ℚ), 2; 1, 2] 0 = !![(1 : ℚ), 2; 1, 2] 1 ∧
      run_omega_mvp !![(1 : ℚ), 2; 1, 2] = none := by
  have hrow : !![(1 : ℚ), 2; 1, 2] 0 = !![(1 : ℚ), 2; 1, 2] 1 := by
    funext k
    fin_cases k <;> rfl
  exact ⟨by decide, hrow, mvp_singular_fails _ 0 1 (by decide) hrow⟩

lemma npLinalgInv_one : npLinalgInv (1 : Matrix (Fin 2) (Fin 2) ℚ) = 1 := by
  simp [npLinalgInv]

lemma deg_scalar_one :
    E (1 : Matrix (Fin 2) (Fin 2) ℚ) (iota 2) -
      D (1 : Matrix (Fin 2) (Fin 2) ℚ) (iota 2) ^ 2 /
        C (1 : Matrix (Fin 2) (Fin 2) ℚ) = 0 := by
  have hC : C (1 : Matrix (Fin 2) (Fin 2) ℚ) = 2 := by
    norm_num [C, npLinalgInv_one, iota, dotProduct, Fin.sum_univ_two]
  have hD : D (1 : Matrix (Fin 2) (Fin 2) ℚ) (iota 2) = 2 := by
    norm_num [D, npLinalgInv_one, iota, dotProduct, Fin.sum_univ_two]
  have hE : E (1 : Matrix (Fin 2) (Fin 2) ℚ) (iota 2) = 2 := by
    norm_num [E, npLinalgInv_one, iota, dotProduct, Fin.sum_univ_two]
  rw [hC, hD, hE]
  norm_num

/-- Counterexample to C6 as stated: at the invertible matrix `Σ = I₂` and the
degenerate mean vector `μ = 1`, the scalar `E - D²/C` vanishes, yet the
run-level efficient-portfolio computation returns weights instead of failing. -/
theorem efp_degenerate_counterexample :
    (E (1 : Matrix (Fin 2) (Fin 2) ℚ) (iota 2) -
        D (1 : Matrix (Fin 2) (Fin 2) ℚ) (iota 2) ^ 2 /
          C (1 : Matrix (Fin 2) (Fin 2) ℚ) = 0) ∧
      run_omega_efp (1 : Matrix (Fin 2) (Fin 2) ℚ) (iota 2) 2 ≠ none := by
  refine ⟨deg_scalar_one, ?_⟩
  simp [run_omega_efp]

/-- C6 amended: the code performs no degeneracy check: for any invertible `Σ`
with vanishing degeneracy scalar `E - D²/C`, the run still succeeds and (since
the degenerate division makes `lambda_tilde` contribute nothing in the exact
semantics) it returns the minimum-variance weights, not an error. -/
theorem efp_degenerate_no_error {n : ℕ} (S : Matrix (Fin n) (Fin n) ℚ)
    (μ : Fin n → ℚ) (μbar : ℚ) (hdet : IsUnit S.det)
    (hdeg : E S μ - D S μ ^ 2 / C S = 0) :
    run_omega_efp S μ μbar = some (omega_mvp S) := by
  have hd0 : S.det ≠ 0 := hdet.ne_zero
  have homega : omega_efp S μ μbar = omega_mvp S := by
    funext i
    simp [omega_efp, lambda_tilde, hdeg, div_zero]
  simp [run_omega_efp, hd0, homega]

/-- Witness for the amended C6 at the 2×2 identity matrix and constant means. -/
theorem efp_degenerate_no_error_witness :
    IsUnit (1 : Matrix (Fin 2) (Fin 2) ℚ).det ∧
      (E (1 : Matrix (Fin 2) (Fin 2) ℚ) (iota 2) -
        D (1 : Matrix (Fin 2) (Fin 2) ℚ) (iota 2) ^ 2 /
          C (1 : Matrix (Fin 2) (Fin 2) ℚ) = 0) ∧
      run_omega_efp (1 : Matrix (Fin 2) (Fin 2) ℚ) (iota 2) 5 =
        some (omega_mvp 1) :=
  ⟨by simp, deg_scalar_one,
    efp_degenerate_no_error 1 (iota 2) 5 (by simp) deg_scalar_one⟩

/-- C9: whenever the tangency variance `wᵀ Σ w` is nonzero, the computed betas
satisfy `w ⬝ᵥ betas = 1`: the tangency portfolio has beta exactly 1. -/
theorem tangency_beta_one {n : ℕ} (S : Matrix (Fin n) (Fin n) ℚ) (w : Fin n → ℚ)
    (h : w ⬝ᵥ S *ᵥ w ≠ 0) : w ⬝ᵥ betas S w = 1 := by
  show (∑ i, w i * ((S *ᵥ w) i / (w ⬝ᵥ S *ᵥ w))) = 1
  simp only [← mul_div_assoc]
  rw [← Finset.sum_div]
  exact div_self h

/-- Witness for C9 at a concrete diagonal matrix and a concrete weight vector. -/
theorem tangency_beta_one_witness :
    (![1, 0] ⬝ᵥ !![(1 : ℚ), 0; 0, 3] *ᵥ ![1, 0]) ≠ 0 ∧
      ![1, 0] ⬝ᵥ betas !![(1 : ℚ), 0; 0, 3] ![1, 0] = 1 := by
  have h : (![1, 0] ⬝ᵥ !![(1 : ℚ), 0; 0, 3] *ᵥ ![1, 0]) ≠ 0 := by
    norm_num [dotProduct, Matrix.mulVec, Fin.sum_univ_two]
  exact ⟨h, tangency_beta_one _ _ h⟩

/-- C10: the tangency normalization has no zero-sum guard: at the invertible
matrix `Σ = I₂` and the input `μ = r_f · 1`, the solve step produces the zero
vector, its entry sum is 0, and the subsequent division by that sum degenerates
(the output fails to sum to 1), so the operation is only total under a
nonzero-sum precondition. -/
theorem tangency_zero_sum_unguarded :
    (1 : Matrix (Fin 2) (Fin 2) ℚ).det ≠ 0 ∧
      (fun _ => (3 : ℚ)/100) = ((3 : ℚ)/100) • (iota 2 : Fin 2 → ℚ) ∧
      (∑ j, w_tan_raw (1 : Matrix (Fin 2) (Fin 2) ℚ) (fun _ => 3/100) (3/100) j) = 0 ∧
      ∑ i, w_tan (1 : Matrix (Fin 2) (Fin 2) ℚ) (fun _ => 3/100) (3/100) i ≠ 1 := by
  have hz : (fun _ => (3 : ℚ)/100) - ((3 : ℚ)/100) • (iota 2 : Fin 2 → ℚ) = 0 := by
    funext i
    simp [iota]
  have hraw : w_tan_raw (1 : Matrix (Fin 2) (Fin 2) ℚ) (fun _ => 3/100) (3/100) = 0 := by
    rw [w_tan_raw, npLinalgSolve, hz, Matrix.mulVec_zero]
  refine ⟨by simp, ?_, ?_, ?_⟩
  · funext i
    simp [iota]
  · rw [hraw]
    simp
  · simp [w_tan, hraw]

/-- C4: for every invertible symmetric covariance matrix `Σ`, mean vector `μ`
whose degeneracy scalar `E - D²/C` is nonzero, and target return `μ̄`, the
computed efficient portfolio attains the target exactly:
`mu_efp = omega_efp ⬝ᵥ μ = μ̄` in exact arithmetic. -/
theorem efp_attains_target {n : ℕ} (S : Matrix (Fin n) (Fin n) ℚ) (μ : Fin n → ℚ)
    (μbar : ℚ) (_hdet : IsUnit S.det) (hsym : Sᵀ = S)
    (hdeg : E S μ - D S μ ^ 2 / C S ≠ 0) :
    mu_efp S μ μbar = μbar := by
  have hAsym : (npLinalgInv S)ᵀ = npLinalgInv S := npLinalgInv_transpose hsym
  have hu_mu : (npLinalgInv S *ᵥ iota n) ⬝ᵥ μ = D S μ :=
    (dot_mulVec_symm hAsym (iota n) μ).symm
  have hv_mu : (npLinalgInv S *ᵥ μ) ⬝ᵥ μ = E S μ :=
    (dot_mulVec_symm hAsym μ μ).symm
  have homega_mu : omega_mvp S ⬝ᵥ μ = D S μ / C S := by
    rw [omega_mvp_eq_smul, smul_dotProduct, hu_mu, smul_eq_mul, ← div_eq_inv_mul]
  have hefp : omega_efp S μ μbar =
      omega_mvp S +
        (lambda_tilde S μ μbar / 2) • (npLinalgInv S *ᵥ μ - D S μ • omega_mvp S) := by
    funext i
    simp [omega_efp, Pi.add_apply, Pi.smul_apply, Pi.sub_apply, smul_eq_mul]
  have key : D S μ / C S +
      lambda_tilde S μ μbar / 2 * (E S μ - D S μ * (D S μ / C S)) = μbar := by
    have h1 : E S μ - D S μ * (D S μ / C S) = E S μ - D S μ ^ 2 / C S := by
      ring
    simp only [lambda_tilde, h1]
    field_simp
    ring
  show omega_efp S μ μbar ⬝ᵥ μ = μbar
  rw [hefp]
  simp only [add_dotProduct, smul_dotProduct, sub_dotProduct, smul_eq_mul]
  rw [homega_mu, hv_mu]
  exact key

/-- Witness for C4 at the 2×2 identity matrix and a nondegenerate mean vector. -/
theorem efp_attains_target_witness :
    IsUnit (1 : Matrix (Fin 2) (Fin 2) ℚ).det ∧
      (1 : Matrix (Fin 2) (Fin 2) ℚ)ᵀ = 1 ∧
      (E (1 : Matrix (Fin 2) (Fin 2) ℚ) ![1, 2] -
        D (1 : Matrix (Fin 2) (Fin 2) ℚ) ![1, 2] ^ 2 /
          C (1 : Matrix (Fin 2) (Fin 2) ℚ) ≠ 0) ∧
      mu_efp (1 : Matrix (Fin 2) (Fin 2) ℚ) ![1, 2] 7 = 7 := by
  have hdeg : E (1 : Matrix (Fin 2) (Fin 2) ℚ) ![1, 2] -
      D (1 : Matrix (Fin 2) (Fin 2) ℚ) ![1, 2] ^ 2 /
        C (1 : Matrix (Fin 2) (Fin 2) ℚ) ≠ 0 := by
    have hC : C (1 : Matrix (Fin 2) (Fin 2) ℚ) = 2 := by
      norm_num [C, npLinalgInv_one, iota, dotProduct, Fin.sum_univ_two]
    have hD : D (1 : Matrix (Fin 2) (Fin 2) ℚ) ![1, 2] = 3 := by
      norm_num [D, npLinalgInv_one, iota, dotProduct, Fin.sum_univ_two]
    have hE : E (1 : Matrix (Fin 2) (Fin 2) ℚ) ![1, 2] = 5 := by
      norm_num [E, dotProduct, npLinalgInv_one, Fin.sum_univ_two]
    rw [hC, hD, hE]
    norm_num
  exact ⟨by simp, by simp,
    hdeg, efp_attains_target 1 ![1, 2] 7 (by simp) (by simp) hdeg⟩

/-- Counterexample to C7 as stated: the volatility step is a bare `np.sqrt`
with no clamp and no warning path: at a matrix and weight vector with radicand
`-1`, the result is NaN (`none`) rather than the clamped `some (sqrt 0)` the
claim describes. -/
theorem volatility_no_clamp_counterexample :
    (![1, 0] ⬝ᵥ !![(-1 : ℚ), 0; 0, -1] *ᵥ ![1, 0]) < 0 ∧
      portfolio_sigma !![(-1 : ℚ), 0; 0, -1] ![1, 0] = none := by
  have hneg : (![1, 0] ⬝ᵥ !![(-1 : ℚ), 0; 0, -1] *ᵥ ![1, 0]) < 0 := by
    norm_num [dotProduct, Matrix.mulVec, Fin.sum_univ_two]
  refine ⟨hneg, ?_⟩
  simp only [portfolio_sigma, npSqrt]
  rw [if_pos hneg]

/-- C7 amended: the source performs no clamping and reports no warning: the
volatility step applies `np.sqrt` directly, which yields NaN (`none`) on a
negative radicand and the exact square root on a nonnegative one. -/
theorem volatility_bare_sqrt {n : ℕ} (S : Matrix (Fin n) (Fin n) ℚ)
    (w : Fin n → ℚ) (h : 0 ≤ w ⬝ᵥ S *ᵥ w) :
    portfolio_sigma S w = some (Real.sqrt ((w ⬝ᵥ S *ᵥ w : ℚ) : ℝ)) := by
  simp only [portfolio_sigma, npSqrt]
  rw [if_neg (not_lt.mpr h)]

/-- Witness for the amended C7 at the 2×2 identity matrix. -/
theorem volatility_bare_sqrt_witness :
    (0 ≤ ![3, 4] ⬝ᵥ (1 : Matrix (Fin 2) (Fin 2) ℚ) *ᵥ ![3, 4]) ∧
      portfolio_sigma (1 : Matrix (Fin 2) (Fin 2) ℚ) ![3, 4] =
        some (Real.sqrt ((![3, 4] ⬝ᵥ (1 : Matrix (Fin 2) (Fin 2) ℚ) *ᵥ ![3, 4] : ℚ) : ℝ)) := by
  have h : (0 : ℚ) ≤ ![3, 4] ⬝ᵥ (1 : Matrix (Fin 2) (Fin 2) ℚ) *ᵥ ![3, 4] := by
    norm_num [Matrix.one_mulVec, dotProduct, Fin.sum_univ_two]
  exact ⟨h, volatility_bare_sqrt _ _ h⟩

lemma qf_mvp_le {K : Type} [LinearOrderedField K] {n : ℕ}
    {S : Matrix (Fin n) (Fin n) K} {w : Fin n → K}
    (hn : 0 < n) (hdet : IsUnit S.det) (hsym : Sᵀ = S) (hpd : IsPD S)
    (hw : ∑ i, w i = 1) :
    omega_mvp S ⬝ᵥ S *ᵥ omega_mvp S ≤ w ⬝ᵥ S *ᵥ w := by
  have hC : 0 < C S := C_pos hn hdet hpd
  have hsa : S *ᵥ omega_mvp S = (C S)⁻¹ • iota n := mulVec_omega_mvp hdet
  have hsum_a : ∑ i, omega_mvp S i = 1 := sum_omega_mvp hC.ne'
  set a := omega_mvp S with ha
  set y := w - a with hy
  have hysum : ∑ i, y i = 0 := by
    rw [hy]
    simp only [Pi.sub_apply, Finset.sum_sub_distrib, hw, hsum_a, sub_self]
  have hya : y ⬝ᵥ S *ᵥ a = 0 := by
    rw [hsa, dotProduct_smul, dotProduct_iota, hysum, smul_zero]
  have hay : a ⬝ᵥ S *ᵥ y = 0 := by
    rw [dot_mulVec_symm hsym a y, dotProduct_comm, hya]
  have hyy : 0 ≤ y ⬝ᵥ S *ᵥ y := by
    rcases eq_or_ne y 0 with h0 | h0
    · rw [h0]
      simp
    · exact (hpd y h0).le
  have hw_eq : w = a + y := by
    funext i
    simp only [hy, Pi.add_apply, Pi.sub_apply]
    ring
  rw [hw_eq, Matrix.mulVec_add, dotProduct_add, add_dotProduct, add_dotProduct,
    hya, hay]
  linarith

/-- C8: over a nonempty asset universe with a symmetric positive-definite
(hence invertible) covariance matrix, the computed minimum-variance weights
minimize volatility among all weight vectors summing to 1:
`sqrt(ω_mvpᵀ Σ ω_mvp) ≤ sqrt(ωᵀ Σ ω)`. -/
theorem mvp_volatility_minimal {n : ℕ} (S : Matrix (Fin n) (Fin n) ℝ)
    (w : Fin n → ℝ) (hn : 0 < n) (hdet : IsUnit S.det) (hsym : Sᵀ = S)
    (hpd : IsPD S) (hw : ∑ i, w i = 1) :
    Real.sqrt (omega_mvp S ⬝ᵥ S *ᵥ omega_mvp S) ≤ Real.sqrt (w ⬝ᵥ S *ᵥ w) :=
  Real.sqrt_le_sqrt (qf_mvp_le hn hdet hsym hpd hw)

/-- Witness for C8 at the 2×2 identity matrix and the weight vector `(1, 0)`. -/
theorem mvp_volatility_minimal_witness :
    0 < 2 ∧ IsUnit (1 : Matrix (Fin 2) (Fin 2) ℝ).det ∧
      (1 : Matrix (Fin 2) (Fin 2) ℝ)ᵀ = 1 ∧
      IsPD (1 : Matrix (Fin 2) (Fin 2) ℝ) ∧
      (∑ i, (![1, 0] : Fin 2 → ℝ) i) = 1 ∧
      Real.sqrt (omega_mvp (1 : Matrix (Fin 2) (Fin 2) ℝ) ⬝ᵥ
          (1 : Matrix (Fin 2) (Fin 2) ℝ) *ᵥ omega_mvp 1) ≤
        Real.sqrt ((![1, 0] : Fin 2 → ℝ) ⬝ᵥ (1 : Matrix (Fin 2) (Fin 2) ℝ) *ᵥ ![1, 0]) := by
  have hw : (∑ i, (![1, 0] : Fin 2 → ℝ) i) = 1 := by
    norm_num [Fin.sum_univ_two]
  exact ⟨by decide, by simp, by simp, isPD_one, hw,
    mvp_volatility_minimal 1 ![1, 0] (by decide) (by simp) (by simp) isPD_one hw⟩

end TidyFinance
